import Mathlib

/-!
Verification of the MarkdownEditor repository's text-mutation engine,
debounced undo history, scroll synchronizer, export pipeline and slug
generation, against the natural-language specification.

Buffers are modelled as `List Char`; character offsets are `Nat`.
JavaScript `value.substring(a, b)` (with `0 ≤ a ≤ b ≤ value.length`) is
`(value.take b).drop a`, `value.substring(0, a)` is `value.take a` and
`value.substring(b)` is `value.drop b`.
-/

namespace MdEditor

/-- The set of characters recognised by the JavaScript regex class `\s`
(restricted to the code points that can appear in this code base's buffers:
space, tab, line feed, vertical tab, form feed, carriage return and
no-break space). -/
def isJsSpace (c : Char) : Bool :=
  c = ' ' || c = '\t' || c = '\n' || c = '\x0b' || c = '\x0c' || c = '\r' ||
  c = ' '

/-- JavaScript `String.prototype.trim()`: remove leading and trailing
whitespace. -/
def jsTrim (l : List Char) : List Char :=
  ((l.dropWhile isJsSpace).reverse.dropWhile isJsSpace).reverse

/-- JavaScript `str.split(sep)` for a single-character separator:
`splitOnC c l` cuts `l` at every occurrence of `c`.  The result is always
non-empty and its parts contain no `c`. -/
def splitOnC (c : Char) : List Char → List (List Char)
  | [] => [[]]
  | a :: rest =>
    match splitOnC c rest with
    | [] => [[]]
    | h :: t => if a = c then [] :: h :: t else (a :: h) :: t

/-- JavaScript `str.indexOf(ch)` (for a single character), returning
`none` instead of `-1` when the character does not occur. -/
def idxOf (c : Char) : List Char → Option Nat
  | [] => none
  | a :: rest => if a = c then some 0 else (idxOf c rest).map (· + 1)

/-- JavaScript `str.lastIndexOf(ch)` (for a single character), returning
`none` instead of `-1` when the character does not occur. -/
def lastIdxOf (c : Char) : List Char → Option Nat
  | [] => none
  | a :: rest =>
    match lastIdxOf c rest with
    | some k => some (k + 1)
    | none => if a = c then some 0 else none

/-- Source: `insertText` (src/components/Editor.tsx lines 74–103, and the
identical copy in src/unnamed/part_000 lines 410–440).  Given the buffer
`value`, the selection `[s, e]` and the marker pair `(before, after)`, it
produces the new buffer
`value.substring(0,s) + before + selected + after + value.substring(e)`
together with the caret position the `setTimeout` callback restores:
`s + before.length` when the selection is empty, and
`s + before.length + selected.length + after.length` otherwise. -/
def insertText (value : List Char) (s e : Nat) (before after : List Char) :
    List Char × Nat :=
  let selected := (value.take e).drop s
  let newText := value.take s ++ before ++ selected ++ after ++ value.drop e
  let caret :=
    if s = e then s + before.length
    else s + before.length + selected.length + after.length
  (newText, caret)

/-- Source: `formatJSON` (src/unnamed/part_000 lines 445–464).  The platform
builtins `JSON.parse` / `JSON.stringify(·, null, 2)` are abstracted as a
parameter `parse : List Char → Option (List Char)` that returns the 2-space
indented re-serialization on success and `none` when `JSON.parse` throws.
With an empty (after `trim`) selection the function alerts and returns; on a
parse failure it alerts and returns; on success it calls
`insertText(formatted)`, i.e. `insertText` with `before = formatted` and
`after = ""`.  Only the resulting buffer is modelled (the alert is a UI
side effect). -/
def formatJSON (parse : List Char → Option (List Char))
    (value : List Char) (s e : Nat) : List Char :=
  let selected := (value.take e).drop s
  if jsTrim selected = [] then value
  else
    match parse selected with
    | some formatted => (insertText value s e formatted []).1
    | none => value

/-- Source: the `parseRow` helper inside `formatMarkdownTable`
(src/unnamed/part_000 lines 483–488): split the line on `|`; with fewer
than 3 parts the row is not a bordered-table row (`null`); otherwise drop
the first and last part and trim each remaining cell. -/
def parseRow (line : List Char) : Option (List (List Char)) :=
  let parts := splitOnC '|' line
  if parts.length < 3 then none
  else some (((parts.drop 1).take (parts.length - 2)).map jsTrim)

/-- JavaScript `cell.match(/^-+$/)`: the cell is a non-empty run of
dashes. -/
def isDashRun (cell : List Char) : Bool :=
  !cell.isEmpty && cell.all (· = '-')

/-- JavaScript `cell.padEnd(width, ' ')`. -/
def padEnd (cell : List Char) (width : Nat) : List Char :=
  cell ++ List.replicate (width - cell.length) ' '

/-- Source: the cell-reconstruction step of `formatMarkdownTable`
(src/unnamed/part_000 lines 499–509): pad each cell of each row to its
column width (a separator cell becomes a dash run of that width) and wrap
the row as `| c₀ | c₁ | … |`. -/
def rebuildRow (colWidths : List Nat) (row : List (List Char)) : List Char :=
  let cells := row.mapIdx fun ci cell =>
    let width := colWidths.getD ci 0
    if isDashRun cell then List.replicate width '-' else padEnd cell width
  '|' :: ' ' :: (List.intercalate (' ' :: '|' :: [' ']) cells ++ [' ', '|'])

/-- Source: `formatMarkdownTable` (src/unnamed/part_000 lines 467–512).
Guard: an all-whitespace selection or one without a `|` alerts and returns
unchanged.  Otherwise the trimmed selection is split into lines, each line
parsed by `parseRow` (unparseable rows are dropped); if no row parses the
buffer is returned unchanged; else per-column maximum widths are computed
over `parsedRows` (missing cells count as `''`, i.e. width 0: JavaScript
`(row[colIndex] || '').length`) using the columns of the first parsed row,
every row is rebuilt, and the joined result is passed to
`insertText(...)` exactly as in `formatJSON`.  (The unused `rows` binding
at line 480 of the source is dead code and not modelled.) -/
def formatMarkdownTable (value : List Char) (s e : Nat) : List Char :=
  let selected := (value.take e).drop s
  if jsTrim selected = [] ∨ ¬ selected.contains '|' then value
  else
    let lines := splitOnC '\n' (jsTrim selected)
    let parsedRows := lines.filterMap parseRow
    match parsedRows with
    | [] => value
    | r0 :: _ =>
      let colWidths := (List.range r0.length).map fun ci =>
        (parsedRows.map fun row => (row.getD ci []).length).foldr max 0
      let formatted :=
        List.intercalate ['\n'] (parsedRows.map (rebuildRow colWidths))
      (insertText value s e formatted []).1

/-- JavaScript regex `\s+` at the start of the input: requires at least one
whitespace character and (being greedy, with nothing following in the
pattern) consumes the maximal run.  Returns the rest on success. -/
def wsPlus : List Char → Option (List Char)
  | [] => none
  | c :: rest => if isJsSpace c then some (rest.dropWhile isJsSpace) else none

/-- Source: `line.replace(/^(\d+\.|-|\*)\s+/, '')` in `insertList`
(src/components/Editor.tsx line 125 and src/unnamed/part_000 line 550).
The alternation `(\d+\.|-|\*)` matches `-` or `*` or a maximal digit run
followed by `.` (backtracking the greedy `\d+` cannot help, because the
character after a shortened digit run is a digit, never `.`), and `\s+`
then requires at least one whitespace character.  On a match the whole
marker is removed; otherwise the line is unchanged. -/
def stripMarker (line : List Char) : List Char :=
  match line with
  | '-' :: rest => ((wsPlus rest).map id).getD line
  | '*' :: rest => ((wsPlus rest).map id).getD line
  | c :: _ =>
    if c.isDigit then
      let digits := line.takeWhile Char.isDigit
      match line.drop digits.length with
      | '.' :: rest2 => (wsPlus rest2).getD line
      | _ => line
    else line
  | [] => line

/-- The decimal numeral of `n`, as emitted by JavaScript template
interpolation `${index + 1}`. -/
def natDigits (n : Nat) : List Char := (Nat.repr n).data

/-- The per-line body of `insertList`: strip any existing marker, then
prepend `"<n>. "` (ordered, `n` starting at 1) or the literal prefix. -/
def listLine (pfx : List Char) (ord : Bool) (i : Nat) (line : List Char) :
    List Char :=
  (if ord then natDigits (i + 1) ++ ['.', ' '] else pfx) ++ stripMarker line

/-- The block rewrite inside `insertList`: split the affected block into
lines (`selectedBlock.split('\n')`), rewrite each with `listLine`, and
re-join with newlines. -/
def blockTransform (pfx : List Char) (ord : Bool) (block : List Char) :
    List Char :=
  List.intercalate ['\n'] ((splitOnC '\n' block).mapIdx (listLine pfx ord))

/-- Source: `insertList` (src/components/Editor.tsx lines 106–139, and the
identical copy in src/unnamed/part_000 lines 531–564).  The affected range
is expanded to line boundaries: `lineStart` is
`value.substring(0, s).lastIndexOf('\n') + 1` and `lineEnd` is
`value.length` when `value.substring(e)` has no newline, else
`e + value.substring(e).indexOf('\n')`.  Each line of the block is
re-marked by `listLine` and the caret is placed at
`lineStart + newBlock.length`. -/
def insertList (value : List Char) (s e : Nat) (pfx : List Char)
    (ord : Bool) : List Char × Nat :=
  let textBefore := value.take s
  let textAfter := value.drop e
  let lineStart := match lastIdxOf '\n' textBefore with
    | some k => k + 1
    | none => 0
  let lineEnd := match idxOf '\n' textAfter with
    | some k => e + k
    | none => value.length
  let selectedBlock := (value.take lineEnd).drop lineStart
  let newBlock := blockTransform pfx ord selectedBlock
  (value.take lineStart ++ newBlock ++ value.drop lineEnd,
   lineStart + newBlock.length)

/-- Source: the first pass of `beautifyMarkdown`
(src/unnamed/part_000 line 518), regex
`(^|\n)(#{1,6})([^\s#])` → `'$1$2 $3'`, restricted to a single line (the
pattern never crosses a newline: `$1` is the line boundary and `$3` cannot
be `\n`).  A line whose maximal leading `#` run has length 1–6 and whose
next character exists and is not whitespace (it is not `#` by maximality)
gets a space inserted after the run; runs longer than 6 never match, since
every backtracked prefix is followed by `#`. -/
def fixH (line : List Char) : List Char :=
  if 1 ≤ (line.takeWhile (· = '#')).length ∧
      (line.takeWhile (· = '#')).length ≤ 6 then
    match line.drop (line.takeWhile (· = '#')).length with
    | c :: rest =>
      if isJsSpace c then line
      else line.takeWhile (· = '#') ++ ' ' :: c :: rest
    | [] => line
  else line

/-- Source: the second pass of `beautifyMarkdown`
(src/unnamed/part_000 line 520), regex `(^|\n)([-*])([^\s])` → `'$1$2 $3'`,
restricted to a single line: a line starting with `-` or `*` followed by a
non-whitespace character gets a space inserted after the marker. -/
def fixL (line : List Char) : List Char :=
  match line with
  | c :: d :: rest =>
    if (c = '-' ∨ c = '*') ∧ ¬ isJsSpace d then c :: ' ' :: d :: rest
    else line
  | _ => line

/-- Applies a per-line transformation at every line start of a buffer,
exactly as a `(^|\n)…`-anchored global regex replacement does (each match
consumes the `\n` before its own line, so the matches of distinct lines
never overlap and every line is examined once). -/
def lineMap (f : List Char → List Char) (l : List Char) : List Char :=
  let hd := l.takeWhile (· ≠ '\n')
  match h : l.dropWhile (· ≠ '\n') with
  | [] => f hd
  | _ :: rest => f hd ++ '\n' :: lineMap f rest
termination_by l.length
decreasing_by
  have h1 : (l.dropWhile (· ≠ '\n')).length ≤ l.length :=
    (List.dropWhile_sublist _).length_le
  simp only [h] at h1
  simpa using Nat.lt_of_lt_of_le (Nat.lt_succ_self _) h1

/-- Source: the third pass of `beautifyMarkdown`
(src/unnamed/part_000 line 522), regex `\n{3,}` → `'\n\n'`: every maximal
run of at least three newlines collapses to exactly two.  Equivalently
(and as defined here), repeatedly delete the first newline of any run of
three until none remains; buffers of at most two characters are
unchanged. -/
def collapseNl : List Char → List Char
  | [] => []
  | [c] => [c]
  | [c, d] => [c, d]
  | c :: d :: e :: rest =>
    if c = '\n' ∧ d = '\n' ∧ e = '\n' then collapseNl ('\n' :: '\n' :: rest)
    else c :: collapseNl (d :: e :: rest)
termination_by l => l.length
decreasing_by all_goals simp_arith

/-- Source: `beautifyMarkdown` (src/unnamed/part_000 lines 515–526): the
header pass, then the list pass, then the newline collapse, applied to the
whole buffer. -/
def beautifyMarkdown (value : List Char) : List Char :=
  collapseNl (lineMap fixL (lineMap fixH value))

/-- The history-relevant state of the Editor component
(src/unnamed/part_000 lines 320–322): the live buffer (the `value` prop),
the `history` array, the `historyIndex`, and the armed debounce timer.
A pending timer stores the `newValue` and the `historyIndex` captured by
the `setTimeout` closure at the moment `handleContentChange` ran (React
state reads inside the callback see the render-time values, while the
functional updates `setHistory (prev => …)` / `setHistoryIndex (prev => …)`
see the current ones). -/
structure EditorHist where
  buffer : String
  history : List String
  index : Nat
  pending : Option (String × Nat)
deriving DecidableEq, Repr

/-- The component's initial state: `useState<string[]>([value])` and
`useState(0)` with no timer armed. -/
def initState (v : String) : EditorHist :=
  { buffer := v, history := [v], index := 0, pending := none }

/-- Source: `handleContentChange` (src/unnamed/part_000 lines 360–375):
update the live buffer, cancel any armed timer, and arm a fresh 800 ms
timer whose callback captures `newValue` and the current `historyIndex`. -/
def handleContentChange (st : EditorHist) (v : String) : EditorHist :=
  { buffer := v, history := st.history, index := st.index,
    pending := some (v, st.index) }

/-- The armed timer firing (the `setTimeout` callback at
src/unnamed/part_000 lines 366–374): append the captured `newValue` after
position `capturedIndex` of the current `history`
(`prev.slice(0, historyIndex + 1)` then `push`), and increment the current
index (`setHistoryIndex(prev => prev + 1)`).  With no armed timer nothing
happens. -/
def fireTimer (st : EditorHist) : EditorHist :=
  match st.pending with
  | none => st
  | some (v, i) =>
    { buffer := st.buffer, history := st.history.take (i + 1) ++ [v],
      index := st.index + 1, pending := none }

/-- Source: `handleUndo` (src/unnamed/part_000 lines 378–385): when
`historyIndex > 0`, decrement the index and set the live buffer to
`history[newIndex]` directly through `onChange` (never through
`handleContentChange`); otherwise do nothing.  The armed timer, if any, is
not cancelled. -/
def handleUndo (st : EditorHist) : EditorHist :=
  if st.index > 0 then
    { buffer := st.history.getD (st.index - 1) "",
      history := st.history, index := st.index - 1, pending := st.pending }
  else st

/-- The states of the Editor component reachable from its initial state by
buffer changes, debounce commits and undos. -/
inductive Reachable : EditorHist → Prop
  | init (v : String) : Reachable (initState v)
  | change {st} (v : String) : Reachable st → Reachable (handleContentChange st v)
  | fire {st} : Reachable st → Reachable (fireTimer st)
  | undo {st} : Reachable st → Reachable (handleUndo st)

/-- A IEEE-style JavaScript number restricted to what the scroll
synchronizer produces: a finite (rational) value, `NaN`, or a signed
infinity. -/
inductive JsNum where
  | fin : ℚ → JsNum
  | nan : JsNum
  | posInf : JsNum
  | negInf : JsNum
deriving DecidableEq, Repr

/-- JavaScript division of two finite numbers: `0/0` is `NaN` and `x/0`
for `x ≠ 0` is a signed infinity. -/
def jsDiv (a b : ℚ) : JsNum :=
  if b = 0 then
    if a = 0 then JsNum.nan else if a > 0 then JsNum.posInf else JsNum.negInf
  else JsNum.fin (a / b)

/-- JavaScript multiplication of a number by a finite number:
`NaN * x = NaN`, `±∞ * 0 = NaN`, and `±∞ * x` keeps the product's sign. -/
def jsMul (a : JsNum) (b : ℚ) : JsNum :=
  match a with
  | JsNum.fin q => JsNum.fin (q * b)
  | JsNum.nan => JsNum.nan
  | JsNum.posInf =>
    if b = 0 then JsNum.nan else if b > 0 then JsNum.posInf else JsNum.negInf
  | JsNum.negInf =>
    if b = 0 then JsNum.nan else if b > 0 then JsNum.negInf else JsNum.posInf

/-- One scrollable pane as read by `handleScroll`: `scrollTop`,
`scrollHeight` and `clientHeight`. -/
structure Pane where
  scrollTop : ℚ
  scrollHeight : ℚ
  clientHeight : ℚ
deriving DecidableEq, Repr

/-- Which pane a scroll event came from. -/
inductive Side where
  | editor : Side
  | preview : Side
deriving DecidableEq, Repr

/-- The pane a scroll event originated from. -/
def srcPane (ed pv : Pane) : Side → Pane
  | Side.editor => ed
  | Side.preview => pv

/-- The pane a scroll event is propagated to (the branch bodies at
src/App.tsx lines 650–658 read the opposite pane). -/
def othPane (ed pv : Pane) : Side → Pane
  | Side.editor => pv
  | Side.preview => ed

/-- The side whose `scrollTop` is assigned. -/
def tgtSide : Side → Side
  | Side.editor => Side.preview
  | Side.preview => Side.editor

/-- Source: `handleScroll` (src/App.tsx lines 632–659), with both refs
mounted.  If the echo lock `isScrollingRef` names the *other* pane the
event is ignored (no write).  Otherwise the lock is taken for `source` and
`percentage = src.scrollTop / (src.scrollHeight - src.clientHeight)` is
computed — with no clamping and no guard on the denominator — and
`percentage * (other.scrollHeight - other.clientHeight)` is assigned to the
other pane's `scrollTop`.  The result is the new lock value plus the pane
written to and the value assigned, or `none` when the event was ignored. -/
def handleScroll (lock : Option Side) (ed pv : Pane) (source : Side) :
    Option Side × Option (Side × JsNum) :=
  if lock.isSome ∧ lock ≠ some source then (lock, none)
  else
    let src := srcPane ed pv source
    let oth := othPane ed pv source
    let percentage := jsDiv src.scrollTop (src.scrollHeight - src.clientHeight)
    (some source,
     some (tgtSide source, jsMul percentage (oth.scrollHeight - oth.clientHeight)))

/-- The page format passed to the `jsPDF` constructor: the string `'a4'`
or an explicit `[width, height]` pair in millimetres. -/
inductive PageFmt where
  | a4 : PageFmt
  | custom : ℚ → ℚ → PageFmt
deriving DecidableEq, Repr

/-- The geometry of the document `downloadPdf` emits: the page format, the
number of pages, and the placement rectangle of the single `addImage`
call. -/
structure PdfOut where
  fmt : PageFmt
  pageCount : Nat
  imgX : ℚ
  imgY : ℚ
  imgW : ℚ
  imgH : ℚ
deriving DecidableEq, Repr

/-- `contentHeightMm = (imgHeight * a4WidthMm) / imgWidth` with
`a4WidthMm = 210` (src/unnamed/part_001 line 139). -/
def contentHeightMm (imgWidth imgHeight : ℚ) : ℚ :=
  imgHeight * 210 / imgWidth

/-- Source: the geometry logic of `downloadPdf`
(src/unnamed/part_001 lines 109–159), taking the captured raster's pixel
dimensions.  `pageFormat` starts as `'a4'` and becomes
`[contentWidthMm, contentHeightMm]` exactly when
`contentHeightMm > a4HeightMm = 297`; a single `jsPDF` document is created
(one page) and one `addImage` call places the raster at `(0, 0)` with size
`contentWidthMm × contentHeightMm`.  Numbers are modelled as rationals. -/
def downloadPdf (imgWidth imgHeight : ℚ) : PdfOut :=
  let ch := contentHeightMm imgWidth imgHeight
  { fmt := if ch > 297 then PageFmt.custom 210 ch else PageFmt.a4,
    pageCount := 1, imgX := 0, imgY := 0, imgW := 210, imgH := ch }

/-- JavaScript regex class `\w`: ASCII letters (`a`–`z` is 97–122,
`A`–`Z` is 65–90), digits (`0`–`9` is 48–57) and underscore (95), stated
on code points. -/
def isWordChar (c : Char) : Bool :=
  (97 ≤ c.toNat && c.toNat ≤ 122) || (65 ≤ c.toNat && c.toNat ≤ 90) ||
  (48 ≤ c.toNat && c.toNat ≤ 57) || c.toNat = 95

/-- `text.toLowerCase()` restricted to ASCII case mapping. -/
def jsLower (l : List Char) : List Char := l.map Char.toLower

/-- Worker for `squashRuns`: `inRun` records whether the previous
character was part of a run of characters failing `p` (whose single
replacement has already been emitted). -/
def squashAux (p : Char → Bool) (r : Char) : Bool → List Char → List Char
  | _, [] => []
  | inRun, c :: rest =>
    if p c then c :: squashAux p r false rest
    else if inRun then squashAux p r true rest
    else r :: squashAux p r true rest

/-- Replace every maximal run of characters failing `p` by the single
character `r` (the shape of a JavaScript `replace(/[⋯]+/g, r)` with a
one-character replacement). -/
def squashRuns (p : Char → Bool) (r : Char) (l : List Char) : List Char :=
  squashAux p r false l

/-- Source: the TOC anchor computation in the headers `useEffect`
(src/App.tsx line 607): `text.toLowerCase().replace(/[^\w]+/g, '-')` —
lower-case, then replace every run of non-word characters with a single
hyphen. -/
def tocId (text : List Char) : List Char :=
  squashRuns isWordChar '-' (jsLower text)

/-- Worker for `collapseHyphens`: `prevHy` records whether the previous
character was a hyphen (so further hyphens of the same run are dropped). -/
def collapseHyAux : Bool → List Char → List Char
  | _, [] => []
  | prevHy, c :: rest =>
    if c = '-' then
      if prevHy then collapseHyAux true rest
      else '-' :: collapseHyAux true rest
    else c :: collapseHyAux false rest

/-- JavaScript `replace(/\-\-+/g, '-')`: collapse every run of at least two
hyphens to a single hyphen (a run of length one is left as is, so this is
"keep the first hyphen of every run"). -/
def collapseHyphens (l : List Char) : List Char :=
  collapseHyAux false l

/-- Source: `slugify` in the Preview component
(src/unnamed/part_000 lines 84–92, identical to lines 12–20):
`text.toLowerCase().trim().replace(/\s+/g,'-').replace(/[^\w\-]+/g,'').replace(/\-\-+/g,'-')`
— lower-case, trim, replace whitespace runs with a hyphen, delete every
character that is neither a word character nor a hyphen, and collapse runs
of two or more hyphens to one. -/
def slugify (text : List Char) : List Char :=
  collapseHyphens
    (((squashRuns (fun c => !isJsSpace c) '-' (jsTrim (jsLower text))).filter
      (fun c => isWordChar c || c = '-')))

/-- The scrollable range of a pane, the denominator of the synchronizer's
ratio: `scrollHeight - clientHeight`. -/
def scrollDenom (p : Pane) : ℚ := p.scrollHeight - p.clientHeight

/-- The behaviour of the platform builtins `JSON.parse` /
`JSON.stringify(·, null, 2)` at the single input `"[1]"`: parsing yields
the one-element array, whose 2-space-indented re-serialization is
`"[\n  1\n]"`.  Used to evaluate `formatJSON` at a concrete input. -/
def jsonParseStringify1 : List Char → Option (List Char) :=
  fun l => if l = "[1]".data then some "[\n  1\n]".data else none

theorem length_selected (value : List Char) (s e : Nat) (hse : s ≤ e)
    (hel : e ≤ value.length) : ((value.take e).drop s).length = e - s := by
  simp only [List.length_drop, List.length_take]
  omega

theorem jsDiv_of_ne (a b : ℚ) (hb : b ≠ 0) : jsDiv a b = JsNum.fin (a / b) := by
  simp [jsDiv, hb]

theorem jsMul_fin (q b : ℚ) : jsMul (JsNum.fin q) b = JsNum.fin (q * b) := rfl

/-- Claim C5: for every buffer, selection `[start, end]` and marker pair
`(before, after)`, Wrap Selection yields
`buffer[0..start] + before + buffer[start..end] + after + buffer[end..]`;
with an empty selection the caret lands at `start + length before`
(between the markers), otherwise at
`start + length before + (end - start) + length after` (immediately after
the inserted `after`).  The operation is a total function — it never
fails. -/
theorem claimC5_wrap_selection (value before after : List Char) (s e : Nat)
    (hse : s ≤ e) (hel : e ≤ value.length) :
    insertText value s e before after =
      (value.take s ++ before ++ (value.take e).drop s ++ after ++ value.drop e,
       if s = e then s + before.length
       else s + before.length + (e - s) + after.length) := by
  have hl := length_selected value s e hse hel
  simp [insertText, hl]

theorem claimC5_wrap_selection_witness :
    insertText "XhelloY".data 1 6 "**".data "**".data =
      ("X**hello**Y".data, 10) := by
  have h := claimC5_wrap_selection "XhelloY".data "**".data "**".data 1 6
    (by decide) (by decide)
  rw [h]
  rfl

/-- Claim C8: PDF export computes
`contentHeight = rasterHeight * 210 / rasterWidth`; when
`contentHeight ≤ 297` the document is a single standard A4 page, when
`contentHeight > 297` it is a single custom page of exactly
`210 × contentHeight`; it is never split across pages (the page count is
1 and the one placed image covers the whole content). -/
theorem claimC8_pdf_single_page (w h : ℚ) (hw : 0 < w) :
    (contentHeightMm w h ≤ 297 → (downloadPdf w h).fmt = PageFmt.a4) ∧
    (297 < contentHeightMm w h →
      (downloadPdf w h).fmt = PageFmt.custom 210 (contentHeightMm w h)) ∧
    (downloadPdf w h).pageCount = 1 ∧ (downloadPdf w h).imgX = 0 ∧
    (downloadPdf w h).imgY = 0 ∧ (downloadPdf w h).imgW = 210 ∧
    (downloadPdf w h).imgH = contentHeightMm w h := by
  refine ⟨fun hle => ?_, fun hgt => ?_, rfl, rfl, rfl, rfl, rfl⟩
  · simp [downloadPdf, not_lt.mpr hle]
  · simp [downloadPdf, hgt]

theorem claimC8_pdf_single_page_witness :
    (downloadPdf 100 100).fmt = PageFmt.a4 ∧
    (downloadPdf 100 200).fmt = PageFmt.custom 210 420 := by
  constructor
  · exact (claimC8_pdf_single_page 100 100 (by norm_num)).1
      (by norm_num [contentHeightMm])
  · have h2 := (claimC8_pdf_single_page 100 200 (by norm_num)).2.1
      (by norm_num [contentHeightMm])
    norm_num [contentHeightMm] at h2
    exact h2

/-- Claim C1 (code bug): Format JSON does not *replace* the selection.
On the buffer `"[1]"` with the whole text selected (a valid JSON
selection), the code inserts the 2-space re-serialization *before* the
still-present selected text — `insertText` keeps `selectedText` between
`before` and `after` — so the result is `"[\n  1\n][1]"`, not the claimed
`"[\n  1\n]"`: the original selected text additionally remains in the
buffer. -/
theorem claimC1_formatJSON_duplicates_selection :
    formatJSON jsonParseStringify1 "[1]".data 0 3 = "[\n  1\n][1]".data ∧
    formatJSON jsonParseStringify1 "[1]".data 0 3 ≠ "[\n  1\n]".data := by
  constructor
  · rfl
  · decide

/-- Claim C3: the failure paths of the formatters are all-or-nothing.
When the selected text does not parse as JSON, `formatJSON` returns the
buffer unchanged; when the selected text contains no `|` (in particular
when it is empty), `formatMarkdownTable` returns the buffer unchanged. -/
theorem claimC3_failures_atomic (parse : List Char → Option (List Char))
    (value : List Char) (s e : Nat) :
    (parse ((value.take e).drop s) = none → formatJSON parse value s e = value) ∧
    ('|' ∉ (value.take e).drop s → formatMarkdownTable value s e = value) := by
  constructor
  · intro hp
    simp [formatJSON, hp]
  · intro hc
    unfold formatMarkdownTable
    rw [if_pos]
    right
    simpa using hc

theorem claimC3_failures_atomic_witness :
    formatJSON (fun _ => none) "ab".data 0 1 = "ab".data ∧
    formatMarkdownTable "ab".data 0 1 = "ab".data :=
  ⟨(claimC3_failures_atomic (fun _ => none) "ab".data 0 1).1 rfl,
   (claimC3_failures_atomic (fun _ => none) "ab".data 0 1).2 (by decide)⟩

/-- Claim C2 counterexample: with the editor pane's content exactly as
tall as its viewport (`scrollHeight - clientHeight = 0 ≤ 0`) the
synchronizer does *not* skip — it still writes the preview pane's
`scrollTop`, and the value it assigns is `0 / 0 = NaN`, not a well-defined
number in `[0, scrollableExtent - viewportExtent]`. -/
theorem claimC2_counterexample :
    scrollDenom ⟨0, 500, 500⟩ ≤ 0 ∧
    handleScroll none ⟨0, 500, 500⟩ ⟨0, 800, 400⟩ Side.editor =
      (some Side.editor, some (Side.preview, JsNum.nan)) := by
  constructor
  · norm_num [scrollDenom]
  · simp [handleScroll, srcPane, othPane, tgtSide, jsDiv, jsMul]

/-- Claim C2 as amended: on a scroll event from pane `P` that the echo
lock does not suppress, the synchronizer always computes
`ratio = scrollOffset / (scrollableExtent - viewportExtent)` with *no*
clamping and *no* denominator guard, and unconditionally assigns
`ratio * (other.scrollableExtent - other.viewportExtent)` to the other
pane; when the source denominator is positive, the offset lies within
`[0, denominator]` and the target denominator is non-negative, the
assigned value is a well-defined number between `0` and the target's
`scrollableExtent - viewportExtent`; when the denominator is `≤ 0` the
write still happens (with a NaN or infinite value, as the counterexample
shows). -/
theorem claimC2_amended (lock : Option Side) (ed pv : Pane) (source : Side)
    (hnb : ¬(lock.isSome ∧ lock ≠ some source)) :
    handleScroll lock ed pv source =
      (some source,
       some (tgtSide source,
         jsMul (jsDiv (srcPane ed pv source).scrollTop
             (scrollDenom (srcPane ed pv source)))
           (scrollDenom (othPane ed pv source)))) ∧
    (0 < scrollDenom (srcPane ed pv source) →
     0 ≤ (srcPane ed pv source).scrollTop →
     (srcPane ed pv source).scrollTop ≤ scrollDenom (srcPane ed pv source) →
     0 ≤ scrollDenom (othPane ed pv source) →
     ∃ q : ℚ,
       jsMul (jsDiv (srcPane ed pv source).scrollTop
           (scrollDenom (srcPane ed pv source)))
         (scrollDenom (othPane ed pv source)) = JsNum.fin q ∧
       0 ≤ q ∧ q ≤ scrollDenom (othPane ed pv source)) := by
  constructor
  · unfold handleScroll
    rw [if_neg hnb]
    rfl
  · intro hpos htop hle hoth
    have hne : scrollDenom (srcPane ed pv source) ≠ 0 := ne_of_gt hpos
    refine ⟨(srcPane ed pv source).scrollTop / scrollDenom (srcPane ed pv source) *
      scrollDenom (othPane ed pv source), ?_, ?_, ?_⟩
    · rw [jsDiv_of_ne _ _ hne, jsMul_fin]
    · exact mul_nonneg (div_nonneg htop (le_of_lt hpos)) hoth
    · have hr : (srcPane ed pv source).scrollTop /
          scrollDenom (srcPane ed pv source) ≤ 1 :=
        (div_le_one hpos).mpr hle
      calc (srcPane ed pv source).scrollTop / scrollDenom (srcPane ed pv source) *
            scrollDenom (othPane ed pv source)
          ≤ 1 * scrollDenom (othPane ed pv source) := by
            exact mul_le_mul_of_nonneg_right hr hoth
        _ = scrollDenom (othPane ed pv source) := one_mul _

theorem claimC2_amended_witness :
    (handleScroll none ⟨250, 1000, 500⟩ ⟨0, 800, 400⟩ Side.editor).2 =
      some (Side.preview, JsNum.fin 200) := by
  have h := claimC2_amended none ⟨250, 1000, 500⟩ ⟨0, 800, 400⟩ Side.editor
    (by simp)
  rw [h.1]
  norm_num [jsDiv, jsMul, srcPane, othPane, tgtSide, scrollDenom]

/-- Claim C10 counterexample: on the heading text `"Hello!"` the TOC
extractor's anchor (`toLowerCase` then `[^\w]+` runs to `-`) is
`"hello-"`, while the Preview's `slugify` deletes the `!` and yields
`"hello"` — the two identifiers differ, so the claim that they always
agree is false. -/
theorem claimC10_counterexample :
    tocId "Hello!".data = "hello-".data ∧
    slugify "Hello!".data = "hello".data ∧
    tocId "Hello!".data ≠ slugify "Hello!".data := by
  refine ⟨?_, ?_, ?_⟩ <;> decide

theorem foldl_handleContentChange (cs : List String) (c : String)
    (st : EditorHist) :
    (cs ++ [c]).foldl handleContentChange st =
      { buffer := c, history := st.history, index := st.index,
        pending := some (c, st.index) } := by
  induction cs generalizing st with
  | nil => rfl
  | cons a t ih =>
    have h := ih (handleContentChange st a)
    simpa [handleContentChange] using h

/-- Claim C4: several buffer changes inside one debounce window (the last
change re-arms the timer each time) commit exactly one history entry when
the timer finally fires, holding the final buffer: starting from a state
whose displayed buffer is `entries[index]`, the commit produces
`entries.take (index+1) ++ [final]` (one appended entry, length
`index + 2`); a single undo then restores the buffer to `entries[index]` —
the buffer from before the first of those changes — and an undo requested
when `index = 0` changes neither the buffer, the entries, nor the
index. -/
theorem claimC4_debounce_coalesce (st : EditorHist) (cs : List String)
    (c : String) (hidx : st.history.get? st.index = some st.buffer) :
    (fireTimer ((cs ++ [c]).foldl handleContentChange st)).history =
      st.history.take (st.index + 1) ++ [c] ∧
    (fireTimer ((cs ++ [c]).foldl handleContentChange st)).history.length =
      st.index + 2 ∧
    (fireTimer ((cs ++ [c]).foldl handleContentChange st)).buffer = c ∧
    (fireTimer ((cs ++ [c]).foldl handleContentChange st)).index =
      st.index + 1 ∧
    (fireTimer ((cs ++ [c]).foldl handleContentChange st)).pending = none ∧
    handleUndo (fireTimer ((cs ++ [c]).foldl handleContentChange st)) =
      { buffer := st.buffer,
        history := st.history.take (st.index + 1) ++ [c],
        index := st.index, pending := none } ∧
    (∀ t : EditorHist, t.index = 0 → handleUndo t = t) := by
  have hlen : st.index < st.history.length := by
    have := List.get?_eq_some.mp hidx
    exact this.1
  rw [foldl_handleContentChange]
  have hfire : fireTimer
      { buffer := c, history := st.history, index := st.index,
        pending := some (c, st.index) } =
      { buffer := c, history := st.history.take (st.index + 1) ++ [c],
        index := st.index + 1, pending := none } := rfl
  rw [hfire]
  have htklen : (st.history.take (st.index + 1)).length = st.index + 1 := by
    simp [List.length_take]
    omega
  refine ⟨rfl, ?_, rfl, rfl, rfl, ?_, ?_⟩
  · simp [htklen]
  · have hidx2 : st.history[st.index]? = some st.buffer := by
      simpa [List.get?_eq_getElem?] using hidx
    have hget : (st.history.take (st.index + 1) ++ [c])[st.index]?.getD "" =
        st.buffer := by
      rw [List.getElem?_append_left (by omega),
        List.getElem?_take_of_lt (by omega), hidx2]
      rfl
    simp [handleUndo, hget]
  · intro t ht
    simp [handleUndo, ht]

theorem claimC4_debounce_coalesce_witness :
    (fireTimer ((["B"] ++ ["C"]).foldl handleContentChange
        (initState "A"))).history = ["A", "C"] ∧
    (handleUndo (fireTimer ((["B"] ++ ["C"]).foldl handleContentChange
        (initState "A")))).buffer = "A" ∧
    handleUndo (initState "A") = initState "A" := by
  have h := claimC4_debounce_coalesce (initState "A") ["B"] "C" rfl
  refine ⟨by rw [h.1]; rfl, by rw [h.2.2.2.2.2.1]; rfl, ?_⟩
  exact h.2.2.2.2.2.2 (initState "A") rfl

theorem reachable_invariant {st : EditorHist} (h : Reachable st) :
    st.index < st.history.length ∧
    ∀ v i, st.pending = some (v, i) → st.index ≤ i := by
  induction h with
  | init v => exact ⟨by simp [initState], by simp [initState]⟩
  | change v _ ih =>
    refine ⟨ih.1, ?_⟩
    intro v2 i hp
    simp only [handleContentChange, Option.some.injEq, Prod.mk.injEq] at hp
    obtain ⟨-, hi⟩ := hp
    simp only [handleContentChange]
    omega
  | fire _ ih =>
    rename_i st2 _
    match hp : st2.pending with
    | none => simpa [fireTimer, hp] using ih
    | some (v, i) =>
      have hle : st2.index ≤ i := ih.2 v i hp
      have hil : st2.index < st2.history.length := ih.1
      refine ⟨?_, by simp [fireTimer, hp]⟩
      simp [fireTimer, hp, List.length_take]
      omega
  | undo _ ih =>
    rename_i st2 _
    by_cases hi : st2.index > 0
    · refine ⟨?_, ?_⟩
      · have := ih.1
        simp only [handleUndo, hi, if_true]
        omega
      · intro v i hp
        simp only [handleUndo, hi, if_true] at hp
        have := ih.2 v i hp
        simp only [handleUndo, hi, if_true]
        omega
    · simpa [handleUndo, hi] using ih

/-- Claim C7 counterexample: type `"B"` and commit, type `"C"` (arming
the timer at index 1), undo (index drops to 0 — the timer is not
cancelled), then let the timer fire.  The commit truncates at the *stale
captured* index 1, not the current index 0: the resulting entries are
`["A", "B", "C"]`, not `history.take (0+1) ++ ["C"] = ["A", "C"]`, so the
forward entry `"B"` sitting after the current index is not discarded —
and after one more change-commit cycle (`"D"`) a further undo restores
`"B"`. -/
theorem claimC7_counterexample :
    (handleUndo (handleContentChange (fireTimer (handleContentChange
        (initState "A") "B")) "C")).index = 0 ∧
    (handleUndo (handleContentChange (fireTimer (handleContentChange
        (initState "A") "B")) "C")).pending = some ("C", 1) ∧
    (fireTimer (handleUndo (handleContentChange (fireTimer
        (handleContentChange (initState "A") "B")) "C"))).history =
      ["A", "B", "C"] ∧
    (fireTimer (handleUndo (handleContentChange (fireTimer
        (handleContentChange (initState "A") "B")) "C"))).history ≠
      (handleUndo (handleContentChange (fireTimer (handleContentChange
          (initState "A") "B")) "C")).history.take (0 + 1) ++ ["C"] ∧
    (handleUndo (fireTimer (handleContentChange (fireTimer (handleUndo
        (handleContentChange (fireTimer (handleContentChange
          (initState "A") "B")) "C"))) "D"))).buffer = "B" := by
  refine ⟨rfl, rfl, rfl, by decide, rfl⟩

/-- Claim C7 as amended: in every reachable history state
`0 ≤ index < length entries` holds, and whenever a timer is armed the
captured index is at least the current one; a debounce commit truncates
the entries after the index *captured when the timer was armed* (the
index at the time of the last buffer change) and appends the pending
buffer there — so only when no undo intervened between that change and
the commit (captured index = current index) does it discard all entries
after the current index and append the new buffer at `index + 1`. -/
theorem claimC7_invariant_and_commit :
    (∀ st : EditorHist, Reachable st →
      st.index < st.history.length ∧
      ∀ v i, st.pending = some (v, i) → st.index ≤ i) ∧
    (∀ (st : EditorHist) (v : String) (i : Nat), st.pending = some (v, i) →
      (fireTimer st).history = st.history.take (i + 1) ++ [v] ∧
      (fireTimer st).index = st.index + 1 ∧
      (fireTimer st).pending = none) := by
  constructor
  · exact fun st h => reachable_invariant h
  · intro st v i hp
    simp [fireTimer, hp]

theorem claimC7_invariant_and_commit_witness :
    (initState "A").index < (initState "A").history.length ∧
    (fireTimer (handleContentChange (initState "A") "B")).history =
      ["A", "B"] := by
  refine ⟨(claimC7_invariant_and_commit.1 (initState "A")
    (Reachable.init "A")).1, ?_⟩
  have h := claimC7_invariant_and_commit.2
    (handleContentChange (initState "A") "B") "B" 0 rfl
  rw [h.1]
  rfl

theorem lastIdxOf_of_not_mem (c : Char) (l : List Char) (h : c ∉ l) :
    lastIdxOf c l = none := by
  induction l with
  | nil => rfl
  | cons a t ih =>
    have h1 : a ≠ c := fun he => h (he ▸ List.mem_cons_self a t)
    have h2 : c ∉ t := fun hm => h (List.mem_cons_of_mem a hm)
    simp [lastIdxOf, ih h2, h1]

theorem lastIdxOf_append_of_not_mem (c : Char) (p q : List Char)
    (hq : c ∉ q) : lastIdxOf c (p ++ q) = lastIdxOf c p := by
  induction p with
  | nil => simp [lastIdxOf_of_not_mem c q hq, lastIdxOf]
  | cons a t ih => simp [lastIdxOf, ih]

theorem lastIdxOf_getLast (c : Char) (p : List Char)
    (h : p.getLast? = some c) : lastIdxOf c p = some (p.length - 1) := by
  induction p with
  | nil => simp at h
  | cons a t ih =>
    cases t with
    | nil =>
      simp [List.getLast?] at h
      simp [lastIdxOf, h]
    | cons b t2 =>
      have h2 : (b :: t2).getLast? = some c := by
        rwa [List.getLast?_cons_cons] at h
      have hrec := ih h2
      show (match lastIdxOf c (b :: t2) with
        | some k => some (k + 1)
        | none => if a = c then some 0 else none) =
        some ((a :: b :: t2).length - 1)
      rw [hrec]
      simp

theorem idxOf_of_not_mem (c : Char) (l : List Char) (h : c ∉ l) :
    idxOf c l = none := by
  induction l with
  | nil => rfl
  | cons a t ih =>
    have h1 : a ≠ c := fun he => h (he ▸ List.mem_cons_self a t)
    have h2 : c ∉ t := fun hm => h (List.mem_cons_of_mem a hm)
    simp [idxOf, h1, ih h2]

theorem idxOf_append_head (c : Char) (r w : List Char) (hr : c ∉ r)
    (hw : w.head? = some c) : idxOf c (r ++ w) = some r.length := by
  induction r with
  | nil =>
    cases w with
    | nil => simp at hw
    | cons b t =>
      simp [List.head?] at hw
      simp [idxOf, hw]
  | cons a t ih =>
    have h1 : a ≠ c := fun he => hr (he ▸ List.mem_cons_self a t)
    have h2 : c ∉ t := fun hm => hr (List.mem_cons_of_mem a hm)
    simp [idxOf, h1, ih h2]

/-- Claim C6: Block List Transform expands the affected range to the
nearest line boundaries around the selection (`p` is the buffer up to the
preceding line boundary, `w` the buffer from the following one), rewrites
every affected line — stripping any `"- "`, `"* "` or `"<number>. "`
marker and prefixing the literal prefix, or `"<n>. "` counted from 1, per
`listLine` — and places the caret at the end of the transformed block. -/
theorem claimC6_insertList (value p q r w pfx : List Char) (ord : Bool)
    (s e : Nat) (hse : s ≤ e) (hel : e ≤ value.length)
    (htake : value.take s = p ++ q) (hq : '\n' ∉ q)
    (hp : p = [] ∨ p.getLast? = some '\n')
    (hdrop : value.drop e = r ++ w) (hr : '\n' ∉ r)
    (hw : w = [] ∨ w.head? = some '\n') :
    insertList value s e pfx ord =
      (p ++ blockTransform pfx ord (q ++ (value.take e).drop s ++ r) ++ w,
       p.length +
         (blockTransform pfx ord (q ++ (value.take e).drop s ++ r)).length) := by
  have hps : p.length ≤ s := by
    have hlq : (p ++ q).length = (value.take s).length := by rw [htake]
    simp [List.length_take] at hlq
    omega
  have hls : (match lastIdxOf '\n' (value.take s) with
      | some k => k + 1
      | none => 0) = p.length := by
    rw [htake]
    rcases hp with hpe | hpl
    · subst hpe
      simp only [List.nil_append]
      rw [lastIdxOf_of_not_mem _ _ hq]
      rfl
    · rw [lastIdxOf_append_of_not_mem _ _ _ hq, lastIdxOf_getLast _ _ hpl]
      have hpos : 1 ≤ p.length := by
        cases p with
        | nil => simp at hpl
        | cons x xs => simp
      show p.length - 1 + 1 = p.length
      omega
  have hled : (match idxOf '\n' (value.drop e) with
      | some k => e + k
      | none => value.length) = e + r.length := by
    rw [hdrop]
    rcases hw with hwe | hwh
    · subst hwe
      rw [List.append_nil, idxOf_of_not_mem _ _ hr]
      show value.length = e + r.length
      have hlr : (value.drop e).length = r.length := by
        rw [hdrop]
        simp
      simp [List.length_drop] at hlr
      omega
    · rw [idxOf_append_head _ _ _ hr hwh]
  have h1 : value.take p.length = p := by
    have e1 : value.take p.length = (value.take s).take p.length := by
      rw [List.take_take, min_eq_left hps]
    rw [e1, htake]
    exact List.take_left p q
  have h2 : value.drop (e + r.length) = w := by
    rw [← List.drop_drop, hdrop, List.drop_left]
  have h3 : (value.take (e + r.length)).drop p.length =
      q ++ (value.take e).drop s ++ r := by
    rw [List.take_add value e r.length, hdrop,
      List.take_append_of_le_length (le_refl r.length), List.take_length]
    have hpe2 : p.length ≤ (value.take e).length := by
      simp [List.length_take]
      omega
    rw [List.drop_append_of_le_length hpe2]
    have e3 : value.take e = value.take s ++ (value.take e).drop s := by
      have e4 : value.take s = (value.take e).take s := by
        rw [List.take_take, min_eq_left hse]
      rw [e4, List.take_append_drop]
    congr 1
    conv_lhs => rw [e3, htake, List.append_assoc]
    rw [List.drop_append_of_le_length (le_refl p.length)]
    simp
  show (value.take (match lastIdxOf '\n' (value.take s) with
      | some k => k + 1
      | none => 0) ++
    blockTransform pfx ord
      ((value.take (match idxOf '\n' (value.drop e) with
          | some k => e + k
          | none => value.length)).drop
        (match lastIdxOf '\n' (value.take s) with
          | some k => k + 1
          | none => 0)) ++
    value.drop (match idxOf '\n' (value.drop e) with
      | some k => e + k
      | none => value.length),
    (match lastIdxOf '\n' (value.take s) with
      | some k => k + 1
      | none => 0) +
      (blockTransform pfx ord
        ((value.take (match idxOf '\n' (value.drop e) with
            | some k => e + k
            | none => value.length)).drop
          (match lastIdxOf '\n' (value.take s) with
            | some k => k + 1
            | none => 0))).length) = _
  rw [hls, hled, h1, h2, h3]

theorem claimC6_insertList_witness :
    insertList "b\n- a\n2. c".data 0 10 "- ".data true =
      ("1. b\n2. a\n3. c".data, 14) := by
  have h := claimC6_insertList "b\n- a\n2. c".data [] [] [] [] "- ".data
    true 0 10 (by decide) (by decide) rfl (by decide) (Or.inl rfl) rfl
    (by decide) (Or.inl rfl)
  rw [h]
  decide

theorem char_ofNat_toNat (n : Nat) (h : n < 55296) :
    (Char.ofNat n).toNat = n := by
  unfold Char.ofNat
  rw [dif_pos]
  · rfl
  · left
    omega

theorem isWordChar_toLower (c : Char) (h : isWordChar c = true) :
    isWordChar c.toLower = true := by
  unfold Char.toLower
  by_cases hc : c.toNat ≥ 65 ∧ c.toNat ≤ 90
  · rw [if_pos hc]
    have ht : (Char.ofNat (c.toNat + 32)).toNat = c.toNat + 32 :=
      char_ofNat_toNat _ (by omega)
    simp [isWordChar, ht]
    omega
  · rwa [if_neg hc]

theorem word_not_space (c : Char) (h : isWordChar c = true) :
    isJsSpace c = false := by
  simp only [isJsSpace, Bool.or_eq_false_iff, decide_eq_false_iff_not]
  refine ⟨⟨⟨⟨⟨⟨?_, ?_⟩, ?_⟩, ?_⟩, ?_⟩, ?_⟩, ?_⟩ <;>
    (intro he; subst he; exact absurd h (by decide))

theorem word_ne_hyphen (c : Char) (h : isWordChar c = true) : c ≠ '-' := by
  intro he
  subst he
  exact absurd h (by decide)

theorem intercalate_pair (s a b : List Char) (t : List (List Char)) :
    List.intercalate s (a :: b :: t) = a ++ s ++ List.intercalate s (b :: t) := by
  simp [List.intercalate, List.intersperse]

theorem intercalate_single (s a : List Char) : List.intercalate s [a] = a := by
  simp [List.intercalate]

theorem squashAux_keep (p : Char → Bool) (r : Char) (u rest : List Char)
    (hu : ∀ c ∈ u, p c = true) :
    squashAux p r false (u ++ rest) = u ++ squashAux p r false rest := by
  induction u with
  | nil => rfl
  | cons c t ih =>
    have hc : p c = true := hu c (List.mem_cons_self c t)
    have ht : ∀ d ∈ t, p d = true := fun d hd => hu d (List.mem_cons_of_mem c hd)
    simp [squashAux, hc, ih ht]

theorem squashAux_true_head (p : Char → Bool) (r : Char) (l : List Char)
    (h : ∀ c, l.head? = some c → p c = true) :
    squashAux p r true l = squashAux p r false l := by
  cases l with
  | nil => rfl
  | cons c t =>
    have hc : p c = true := h c rfl
    simp [squashAux, hc]

theorem squash_intercalate (p : Char → Bool) (hsp : p ' ' = false) :
    ∀ ws : List (List Char), ws ≠ [] →
      (∀ u ∈ ws, u ≠ [] ∧ ∀ c ∈ u, p c = true) →
      squashAux p '-' false (List.intercalate [' '] ws) =
        List.intercalate ['-'] ws
  | [], hne, _ => absurd rfl hne
  | [u], _, hws => by
    rw [intercalate_single, intercalate_single]
    have := squashAux_keep p '-' u [] (hws u (List.mem_singleton.mpr rfl)).2
    simpa [squashAux] using this
  | u :: u2 :: t, _, hws => by
    rw [intercalate_pair, intercalate_pair, List.append_assoc,
      List.append_assoc]
    rw [squashAux_keep p '-' u _ (hws u (List.mem_cons_self u _)).2]
    congr 1
    show squashAux p '-' false (' ' :: List.intercalate [' '] (u2 :: t)) =
      '-' :: List.intercalate ['-'] (u2 :: t)
    have hstep : squashAux p '-' false (' ' :: List.intercalate [' '] (u2 :: t)) =
        '-' :: squashAux p '-' true (List.intercalate [' '] (u2 :: t)) := by
      simp [squashAux, hsp]
    rw [hstep]
    congr 1
    have hu2 := hws u2 (List.mem_cons_of_mem u (List.mem_cons_self u2 t))
    have hhead : ∀ c, (List.intercalate [' '] (u2 :: t)).head? = some c →
        p c = true := by
      intro c hc
      have hint : (List.intercalate [' '] (u2 :: t)).head? = u2.head? := by
        cases t with
        | nil =>
          rw [intercalate_single]
        | cons u3 t2 =>
          rw [intercalate_pair, List.append_assoc]
          cases u2 with
          | nil => exact absurd rfl hu2.1
          | cons d t3 => rfl
      rw [hint] at hc
      cases u2 with
      | nil => simp at hc
      | cons d t3 =>
        simp at hc
        exact hc ▸ hu2.2 d (List.mem_cons_self d t3)
    rw [squashAux_true_head p '-' _ hhead]
    exact squash_intercalate p hsp (u2 :: t) (by simp)
      (fun v hv => hws v (List.mem_cons_of_mem u hv))

theorem collapseHyAux_keep (u rest : List Char) (b : Bool)
    (hu : ∀ c ∈ u, c ≠ '-') (hne : u ≠ []) :
    collapseHyAux b (u ++ rest) = u ++ collapseHyAux false rest := by
  induction u generalizing b with
  | nil => exact absurd rfl hne
  | cons c t ih =>
    have hc : c ≠ '-' := hu c (List.mem_cons_self c t)
    have ht : ∀ d ∈ t, d ≠ '-' := fun d hd => hu d (List.mem_cons_of_mem c hd)
    have hstep : collapseHyAux b ((c :: t) ++ rest) =
        c :: collapseHyAux false (t ++ rest) := by
      simp [collapseHyAux, hc]
    cases t with
    | nil => simp [collapseHyAux, hc]
    | cons d t2 =>
      rw [hstep, ih false ht (by simp)]
      rfl

theorem collapseHyAux_true_head (l : List Char)
    (h : ∀ c, l.head? = some c → c ≠ '-') :
    collapseHyAux true l = collapseHyAux false l := by
  cases l with
  | nil => rfl
  | cons c t =>
    have hc : c ≠ '-' := h c rfl
    simp [collapseHyAux, hc]

theorem collapse_intercalate :
    ∀ ws : List (List Char), ws ≠ [] →
      (∀ u ∈ ws, u ≠ [] ∧ ∀ c ∈ u, isWordChar c = true) →
      collapseHyAux false (List.intercalate ['-'] ws) =
        List.intercalate ['-'] ws
  | [], hne, _ => absurd rfl hne
  | [u], _, hws => by
    rw [intercalate_single]
    have hu := hws u (List.mem_singleton.mpr rfl)
    have := collapseHyAux_keep u [] false
      (fun c hc => word_ne_hyphen c (hu.2 c hc)) hu.1
    simpa [collapseHyAux] using this
  | u :: u2 :: t, _, hws => by
    rw [intercalate_pair, List.append_assoc]
    have hu := hws u (List.mem_cons_self u _)
    rw [collapseHyAux_keep u _ false
      (fun c hc => word_ne_hyphen c (hu.2 c hc)) hu.1]
    congr 1
    show collapseHyAux false ('-' :: List.intercalate ['-'] (u2 :: t)) =
      '-' :: List.intercalate ['-'] (u2 :: t)
    have hstep : collapseHyAux false ('-' :: List.intercalate ['-'] (u2 :: t)) =
        '-' :: collapseHyAux true (List.intercalate ['-'] (u2 :: t)) := by
      simp [collapseHyAux]
    rw [hstep]
    congr 1
    have hu2 := hws u2 (List.mem_cons_of_mem u (List.mem_cons_self u2 t))
    have hhead : ∀ c, (List.intercalate ['-'] (u2 :: t)).head? = some c →
        c ≠ '-' := by
      intro c hc
      have hint : (List.intercalate ['-'] (u2 :: t)).head? = u2.head? := by
        cases t with
        | nil => rw [intercalate_single]
        | cons u3 t2 =>
          rw [intercalate_pair, List.append_assoc]
          cases u2 with
          | nil => exact absurd rfl hu2.1
          | cons d t3 => rfl
      rw [hint] at hc
      cases u2 with
      | nil => simp at hc
      | cons d t3 =>
        simp at hc
        exact hc ▸ word_ne_hyphen d (hu2.2 d (List.mem_cons_self d t3))
    rw [collapseHyAux_true_head _ hhead]
    exact collapse_intercalate (u2 :: t) (by simp)
      (fun v hv => hws v (List.mem_cons_of_mem u hv))

theorem getLast?_append_ne (l l' : List Char) (h : l' ≠ []) :
    (l ++ l').getLast? = l'.getLast? := by
  rw [List.getLast?_append]
  cases hl : l'.getLast? with
  | none => exact absurd (List.getLast?_eq_none_iff.mp hl) h
  | some c => rfl

theorem dropWhile_of_head_false (q : Char → Bool) (l : List Char)
    (h : ∀ c, l.head? = some c → q c = false) : l.dropWhile q = l := by
  cases l with
  | nil => rfl
  | cons c t => simp [List.dropWhile, h c rfl]

theorem jsTrim_of_ends (l : List Char)
    (h1 : ∀ c, l.head? = some c → isJsSpace c = false)
    (h2 : ∀ c, l.getLast? = some c → isJsSpace c = false) : jsTrim l = l := by
  unfold jsTrim
  rw [dropWhile_of_head_false _ _ h1]
  rw [dropWhile_of_head_false _ _ (by
    intro c hc
    rw [List.head?_reverse] at hc
    exact h2 c hc)]
  exact List.reverse_reverse l

theorem intercalate_head (s : List Char) :
    ∀ (u : List Char) (t : List (List Char)), u ≠ [] →
      (List.intercalate s (u :: t)).head? = u.head?
  | u, [], _ => by rw [intercalate_single]
  | u, u2 :: t2, hne => by
    rw [intercalate_pair, List.append_assoc]
    cases u with
    | nil => exact absurd rfl hne
    | cons d t3 => rfl

theorem intercalate_getLast (s : List Char) :
    ∀ (u : List Char) (t : List (List Char)),
      (∀ v ∈ u :: t, v ≠ []) →
      (List.intercalate s (u :: t)).getLast? =
        ((u :: t).getLast (by simp)).getLast?
  | u, [], _ => by rw [intercalate_single]; rfl
  | u, u2 :: t2, hws => by
    rw [intercalate_pair, List.append_assoc]
    have hrec := intercalate_getLast s u2 t2
      (fun v hv => hws v (List.mem_cons_of_mem u hv))
    have hne2 : List.intercalate s (u2 :: t2) ≠ [] := by
      intro hcon
      have hlast : (List.intercalate s (u2 :: t2)).getLast? = none := by
        rw [hcon]; rfl
      rw [hrec] at hlast
      have hmem : (u2 :: t2).getLast (by simp) ∈ u2 :: t2 :=
        List.getLast_mem _
      have := hws _ (List.mem_cons_of_mem u hmem)
      rw [List.getLast?_eq_none_iff] at hlast
      exact this hlast
    have hsne : s ++ List.intercalate s (u2 :: t2) ≠ [] := by
      simp [hne2]
    rw [getLast?_append_ne _ _ hsne, getLast?_append_ne _ _ hne2, hrec]
    show _ = ((u :: u2 :: t2).getLast (by simp)).getLast?
    congr 1

theorem jsLower_intercalate_space :
    ∀ ws : List (List Char),
      jsLower (List.intercalate [' '] ws) =
        List.intercalate [' '] (ws.map jsLower)
  | [] => rfl
  | [u] => by
    rw [intercalate_single]
    simp [intercalate_single]
  | u :: u2 :: t => by
    have hrec := jsLower_intercalate_space (u2 :: t)
    rw [intercalate_pair, List.map_cons, List.map_cons, intercalate_pair,
      ← List.map_cons jsLower u2 t, ← hrec]
    simp [jsLower, List.map_append, show Char.toLower ' ' = ' ' from rfl]

theorem mem_intercalate_word :
    ∀ ws : List (List Char), (∀ u ∈ ws, ∀ c ∈ u, isWordChar c = true) →
      ∀ c ∈ List.intercalate ['-'] ws, (isWordChar c || c = '-') = true
  | [], _, c, hc => by simp [List.intercalate] at hc
  | [u], hws, c, hc => by
    rw [intercalate_single] at hc
    simp [hws u (List.mem_singleton.mpr rfl) c hc]
  | u :: u2 :: t, hws, c, hc => by
    rw [intercalate_pair, List.append_assoc] at hc
    rcases List.mem_append.mp hc with hcu | hcr
    · simp [hws u (List.mem_cons_self u _) c hcu]
    · rcases List.mem_cons.mp hcr with hch | hci
      · simp [hch]
      · exact mem_intercalate_word (u2 :: t)
          (fun v hv => hws v (List.mem_cons_of_mem u hv)) c hci

/-- Claim C10 as amended: the TOC extractor's anchor and the Preview's
`slugify` agree on every heading text consisting of non-empty words of
word characters (letters, digits, underscore) separated by single spaces —
both produce the lower-cased words joined by hyphens.  (They diverge on
other texts, e.g. on trailing punctuation, as the counterexample
shows.) -/
theorem claimC10_amended (ws : List (List Char)) (hne : ws ≠ [])
    (hws : ∀ u ∈ ws, u ≠ [] ∧ ∀ c ∈ u, isWordChar c = true) :
    tocId (List.intercalate [' '] ws) = slugify (List.intercalate [' '] ws) := by
  have hne2 : ws.map jsLower ≠ [] := by simpa using hne
  have hws2 : ∀ u ∈ ws.map jsLower, u ≠ [] ∧ ∀ c ∈ u, isWordChar c = true := by
    intro u hu
    obtain ⟨v, hv, rfl⟩ := List.mem_map.mp hu
    obtain ⟨hv1, hv2⟩ := hws v hv
    refine ⟨by simpa [jsLower] using hv1, ?_⟩
    intro c hc
    obtain ⟨d, hd, rfl⟩ := List.mem_map.mp hc
    exact isWordChar_toLower d (hv2 d hd)
  have htoc : tocId (List.intercalate [' '] ws) =
      List.intercalate ['-'] (ws.map jsLower) := by
    unfold tocId squashRuns
    rw [jsLower_intercalate_space]
    exact squash_intercalate isWordChar (by decide) _ hne2 hws2
  have htrim : jsTrim (List.intercalate [' '] (ws.map jsLower)) =
      List.intercalate [' '] (ws.map jsLower) := by
    cases hcase : ws.map jsLower with
    | nil => exact absurd hcase hne2
    | cons u t =>
      have hwsc := hcase ▸ hws2
      have hu := hwsc u (List.mem_cons_self u t)
      refine jsTrim_of_ends _ ?_ ?_
      · intro c hc
        rw [intercalate_head [' '] u t hu.1] at hc
        cases u with
        | nil => simp at hc
        | cons d t3 =>
          simp at hc
          exact hc ▸ word_not_space d (hu.2 d (List.mem_cons_self d t3))
      · intro c hc
        rw [intercalate_getLast [' '] u t (fun v hv => (hwsc v hv).1)] at hc
        have hmem : (u :: t).getLast (by simp) ∈ u :: t := List.getLast_mem _
        have hlw := hwsc _ hmem
        obtain ⟨hex, hceq⟩ :=
          List.mem_getLast?_eq_getLast (Option.mem_def.mpr hc)
        have hcm : c ∈ (u :: t).getLast (by simp) :=
          hceq ▸ List.getLast_mem hex
        exact word_not_space c (hlw.2 c hcm)
  have hsq : squashAux (fun c => !isJsSpace c) '-' false
      (List.intercalate [' '] (ws.map jsLower)) =
      List.intercalate ['-'] (ws.map jsLower) := by
    refine squash_intercalate _ (by decide) _ hne2 ?_
    intro u hu
    obtain ⟨h1, h2⟩ := hws2 u hu
    exact ⟨h1, fun c hc => by simp [word_not_space c (h2 c hc)]⟩
  have hfil : (List.intercalate ['-'] (ws.map jsLower)).filter
      (fun c => isWordChar c || c = '-') =
      List.intercalate ['-'] (ws.map jsLower) :=
    List.filter_eq_self.mpr
      (mem_intercalate_word _ (fun u hu c hc => (hws2 u hu).2 c hc))
  have hcol := collapse_intercalate _ hne2 hws2
  rw [htoc]
  unfold slugify squashRuns collapseHyphens
  rw [jsLower_intercalate_space, htrim, hsq, hfil, hcol]

theorem claimC10_amended_witness :
    tocId "Code Block".data = slugify "Code Block".data ∧
    tocId "Code Block".data = "code-block".data := by
  have hi : List.intercalate [' '] ["Code".data, "Block".data] =
      "Code Block".data := by decide
  have h := claimC10_amended ["Code".data, "Block".data] (by simp) (by decide)
  rw [hi] at h
  exact ⟨h, by decide⟩

theorem takeWhile_ne_nl_append (A R : List Char) (hA : '\n' ∉ A) :
    (A ++ '\n' :: R).takeWhile (· ≠ '\n') = A := by
  induction A with
  | nil =>
    rw [List.nil_append, List.takeWhile_cons, if_neg]
    simp
  | cons a t ih =>
    have ha : a ≠ '\n' := fun he => hA (he ▸ List.mem_cons_self a t)
    have ht : '\n' ∉ t := fun hm => hA (List.mem_cons_of_mem a hm)
    rw [List.cons_append, List.takeWhile_cons, if_pos (by simp [ha]), ih ht]

theorem dropWhile_ne_nl_append (A R : List Char) (hA : '\n' ∉ A) :
    (A ++ '\n' :: R).dropWhile (· ≠ '\n') = '\n' :: R := by
  induction A with
  | nil =>
    rw [List.nil_append, List.dropWhile_cons, if_neg]
    simp
  | cons a t ih =>
    have ha : a ≠ '\n' := fun he => hA (he ▸ List.mem_cons_self a t)
    have ht : '\n' ∉ t := fun hm => hA (List.mem_cons_of_mem a hm)
    rw [List.cons_append, List.dropWhile_cons, if_pos (by simp [ha]), ih ht]

theorem takeWhile_ne_nl_all (l : List Char) (h : '\n' ∉ l) :
    l.takeWhile (· ≠ '\n') = l := by
  induction l with
  | nil => rfl
  | cons a t ih =>
    have ha : a ≠ '\n' := fun he => h (he ▸ List.mem_cons_self a t)
    have ht : '\n' ∉ t := fun hm => h (List.mem_cons_of_mem a hm)
    rw [List.takeWhile_cons, if_pos (by simp [ha]), ih ht]

theorem dropWhile_ne_nl_all (l : List Char) (h : '\n' ∉ l) :
    l.dropWhile (· ≠ '\n') = [] := by
  induction l with
  | nil => rfl
  | cons a t ih =>
    have ha : a ≠ '\n' := fun he => h (he ▸ List.mem_cons_self a t)
    have ht : '\n' ∉ t := fun hm => h (List.mem_cons_of_mem a hm)
    rw [List.dropWhile_cons, if_pos (by simp [ha]), ih ht]

theorem lineMap_no_nl (f : List Char → List Char) (l : List Char)
    (h : '\n' ∉ l) : lineMap f l = f l := by
  unfold lineMap
  split
  · rw [takeWhile_ne_nl_all l h]
  · rename_i heq
    rw [dropWhile_ne_nl_all l h] at heq
    simp at heq

theorem lineMap_append (f : List Char → List Char) (A R : List Char)
    (hA : '\n' ∉ A) :
    lineMap f (A ++ '\n' :: R) = f A ++ '\n' :: lineMap f R := by
  conv_lhs => rw [lineMap]
  split
  · rename_i heq
    rw [dropWhile_ne_nl_append A R hA] at heq
    simp at heq
  · rename_i c rest heq
    rw [dropWhile_ne_nl_append A R hA] at heq
    injection heq with hc hr
    subst hc
    subst hr
    rw [takeWhile_ne_nl_append A R hA]

theorem dropWhile_head_false (p : Char → Bool) (l : List Char) (c : Char)
    (R : List Char) (h : l.dropWhile p = c :: R) : p c = false := by
  induction l with
  | nil => simp at h
  | cons a t ih =>
    rw [List.dropWhile_cons] at h
    by_cases hp : p a = true
    · rw [if_pos hp] at h
      exact ih h
    · rw [if_neg hp] at h
      injection h with h1 _
      subst h1
      exact Bool.not_eq_true _ ▸ hp

theorem split_at_nl (l : List Char) (h : '\n' ∈ l) :
    ∃ A R, l = A ++ '\n' :: R ∧ '\n' ∉ A := by
  refine ⟨l.takeWhile (· ≠ '\n'), (l.dropWhile (· ≠ '\n')).tail, ?_, ?_⟩
  · cases hdw : l.dropWhile (· ≠ '\n') with
    | nil =>
      exfalso
      have := List.dropWhile_eq_nil_iff.mp hdw '\n' h
      simp at this
    | cons c R =>
      have hc := dropWhile_head_false _ _ _ _ hdw
      have hc2 : c = '\n' := by simpa using hc
      subst hc2
      have hsplit : l.takeWhile (· ≠ '\n') ++ l.dropWhile (· ≠ '\n') = l :=
        List.takeWhile_append_dropWhile _ l
      conv_lhs => rw [← hsplit]
      rw [hdw]
      rfl
  · intro hmem
    have := List.mem_takeWhile_imp hmem
    simp at this

theorem lineMap_fuse (f g : List Char → List Char)
    (hg : ∀ a, '\n' ∉ a → '\n' ∉ g a) (l : List Char) :
    lineMap f (lineMap g l) = lineMap (fun a => f (g a)) l := by
  by_cases hnl : '\n' ∈ l
  · obtain ⟨A, R, hL, hA⟩ := split_at_nl l hnl
    rw [hL, lineMap_append g A R hA, lineMap_append (fun a => f (g a)) A R hA,
      lineMap_append f (g A) (lineMap g R) (hg A hA),
      lineMap_fuse f g hg R]
  · rw [lineMap_no_nl g l hnl, lineMap_no_nl f (g l) (hg l hnl),
      lineMap_no_nl (fun a => f (g a)) l hnl]
termination_by l.length
decreasing_by
  rw [hL]
  simp [List.length_append]
  omega

theorem lineMap_congr (f g : List Char → List Char) (h : ∀ a, f a = g a)
    (l : List Char) : lineMap f l = lineMap g l := by
  rw [funext h]

theorem takeWhile_all_append (p : Char → Bool) (A : List Char) (x : Char)
    (t : List Char) (hall : ∀ c ∈ A, p c = true) (hx : p x = false) :
    (A ++ x :: t).takeWhile p = A := by
  induction A with
  | nil =>
    rw [List.nil_append, List.takeWhile_cons, if_neg]
    simp [hx]
  | cons a s ih =>
    have ha : p a = true := hall a (List.mem_cons_self a s)
    have hs : ∀ c ∈ s, p c = true := fun c hc => hall c (List.mem_cons_of_mem a hc)
    rw [List.cons_append, List.takeWhile_cons, if_pos ha, ih hs]

theorem fixH_no_nl (a : List Char) (h : '\n' ∉ a) : '\n' ∉ fixH a := by
  unfold fixH
  split
  · split
    · rename_i c rest hdrop
      split
      · exact h
      · intro hmem
        rcases List.mem_append.mp hmem with h1 | h2
        · exact h ((List.takeWhile_sublist _).subset h1)
        · rcases List.mem_cons.mp h2 with h3 | h4
          · simp at h3
          · have hin : '\n' ∈ a.drop (a.takeWhile (· = '#')).length := by
              rw [hdrop]
              exact h4
            exact h ((List.drop_sublist _ _).subset hin)
    · exact h
  · exact h

theorem fixL_cons (c d : Char) (rest : List Char) :
    fixL (c :: d :: rest) =
      if (c = '-' ∨ c = '*') ∧ ¬ isJsSpace d then c :: ' ' :: d :: rest
      else c :: d :: rest := rfl

theorem fixL_no_nl (a : List Char) (h : '\n' ∉ a) : '\n' ∉ fixL a := by
  cases a with
  | nil => simpa [fixL] using h
  | cons c t =>
    cases t with
    | nil => simpa [fixL] using h
    | cons d rest =>
      rw [fixL_cons]
      by_cases hcd : (c = '-' ∨ c = '*') ∧ ¬ isJsSpace d
      · rw [if_pos hcd]
        intro hmem
        rcases List.mem_cons.mp hmem with h1 | h2
        · exact h (h1 ▸ List.mem_cons_self c (d :: rest))
        · rcases List.mem_cons.mp h2 with h3 | h4
          · simp at h3
          · exact h (List.mem_cons_of_mem c h4)
      · rw [if_neg hcd]
        exact h

theorem fixH_idem (a : List Char) : fixH (fixH a) = fixH a := by
  by_cases hc : 1 ≤ (a.takeWhile (· = '#')).length ∧
      (a.takeWhile (· = '#')).length ≤ 6
  · cases hdrop : a.drop (a.takeWhile (· = '#')).length with
    | nil =>
      have hfa : fixH a = a := by
        unfold fixH
        rw [if_pos hc, hdrop]
      simp [hfa]
    | cons c rest =>
      by_cases hsp : isJsSpace c = true
      · have hfa : fixH a = a := by
          unfold fixH
          rw [if_pos hc, hdrop]
          simp [hsp]
        simp [hfa]
      · have hfa : fixH a =
            a.takeWhile (· = '#') ++ ' ' :: c :: rest := by
          unfold fixH
          rw [if_pos hc, hdrop]
          simp [hsp]
        have htw : ((a.takeWhile (· = '#') ++ ' ' :: c :: rest).takeWhile
            (· = '#')) = a.takeWhile (· = '#') :=
          takeWhile_all_append _ _ _ _
            (fun x hx => by
              have hpx := List.mem_takeWhile_imp hx
              simpa using hpx) (by decide)
        rw [hfa]
        unfold fixH
        rw [htw, if_pos hc, List.drop_left]
        simp [isJsSpace]
  · have hfa : fixH a = a := by
      unfold fixH
      rw [if_neg hc]
    simp [hfa]

theorem fixL_idem (a : List Char) : fixL (fixL a) = fixL a := by
  cases a with
  | nil => rfl
  | cons c t =>
    cases t with
    | nil => rfl
    | cons d rest =>
      rw [fixL_cons]
      by_cases hcd : (c = '-' ∨ c = '*') ∧ ¬ isJsSpace d
      · rw [if_pos hcd, fixL_cons, if_neg]
        rintro ⟨-, hsp⟩
        exact hsp (by decide)
      · rw [if_neg hcd, fixL_cons, if_neg hcd]

theorem fixH_of_head_ne (a : List Char)
    (h : ∀ x, a.head? = some x → x ≠ '#') : fixH a = a := by
  cases a with
  | nil => rfl
  | cons c t =>
    have hc : c ≠ '#' := h c rfl
    unfold fixH
    rw [List.takeWhile_cons, if_neg (by simp [hc])]

theorem fixL_head (a : List Char) : (fixL a).head? = a.head? := by
  cases a with
  | nil => rfl
  | cons c t =>
    cases t with
    | nil => rfl
    | cons d rest =>
      rw [fixL_cons]
      by_cases hcd : (c = '-' ∨ c = '*') ∧ ¬ isJsSpace d
      · rw [if_pos hcd]
        rfl
      · rw [if_neg hcd]

theorem fixH_fixL_fixH (a : List Char) :
    fixH (fixL (fixH a)) = fixL (fixH a) := by
  by_cases hh : (fixH a).head? = some '#'
  · have hfl : fixL (fixH a) = fixH a := by
      cases hfa : fixH a with
      | nil =>
        rw [hfa] at hh
        simp at hh
      | cons c t =>
        rw [hfa] at hh
        have hc : c = '#' := by simpa using hh
        subst hc
        cases t with
        | nil => rfl
        | cons d rest =>
          rw [fixL_cons, if_neg]
          rintro ⟨hcd, -⟩
          rcases hcd with h1 | h1 <;> simp at h1
    rw [hfl, fixH_idem]
  · apply fixH_of_head_ne
    intro x hx he
    rw [fixL_head] at hx
    exact hh (he ▸ hx)

theorem collapseNl_nil : collapseNl [] = [] := by
  rw [collapseNl]

theorem collapseNl_one (c : Char) : collapseNl [c] = [c] := by
  rw [collapseNl]

theorem collapseNl_two (c d : Char) : collapseNl [c, d] = [c, d] := by
  rw [collapseNl]

theorem collapseNl_cons3 (c d e : Char) (rest : List Char) :
    collapseNl (c :: d :: e :: rest) =
      if c = '\n' ∧ d = '\n' ∧ e = '\n' then collapseNl ('\n' :: '\n' :: rest)
      else c :: collapseNl (d :: e :: rest) := by
  rw [collapseNl]

theorem collapseNl_cons_ne (c : Char) (hx : c ≠ '\n') (X : List Char) :
    collapseNl (c :: X) = c :: collapseNl X := by
  match X with
  | [] => rw [collapseNl_one, collapseNl_nil]
  | [d] => rw [collapseNl_two, collapseNl_one]
  | d :: e :: r =>
    rw [collapseNl_cons3, if_neg]
    rintro ⟨h1, -⟩
    exact hx h1

theorem collapseNl_nl_cons (T : List Char)
    (hT : ∀ y, T.head? = some y → y ≠ '\n') :
    collapseNl ('\n' :: T) = '\n' :: collapseNl T := by
  match T with
  | [] => rw [collapseNl_one, collapseNl_nil]
  | [y] => rw [collapseNl_two, collapseNl_one]
  | y :: z :: r =>
    rw [collapseNl_cons3, if_neg]
    rintro ⟨-, h2, -⟩
    exact hT y rfl h2

theorem collapseNl_no_nl (l : List Char) (h : '\n' ∉ l) :
    collapseNl l = l := by
  induction l with
  | nil => exact collapseNl_nil
  | cons c t ih =>
    have hc : c ≠ '\n' := fun he => h (he ▸ List.mem_cons_self c t)
    have ht : '\n' ∉ t := fun hm => h (List.mem_cons_of_mem c hm)
    rw [collapseNl_cons_ne c hc, ih ht]

theorem collapseNl_append_no_nl (A t : List Char) (hA : '\n' ∉ A) :
    collapseNl (A ++ t) = A ++ collapseNl t := by
  induction A with
  | nil => rw [List.nil_append, List.nil_append]
  | cons a s ih =>
    have ha : a ≠ '\n' := fun he => hA (he ▸ List.mem_cons_self a s)
    have hs : '\n' ∉ s := fun hm => hA (List.mem_cons_of_mem a hm)
    rw [List.cons_append, collapseNl_cons_ne a ha, ih hs]
    rfl

theorem collapseNl_head (x : Char) (X : List Char) :
    (collapseNl (x :: X)).head? = some x := by
  match X with
  | [] => rw [collapseNl_one]; rfl
  | [d] => rw [collapseNl_two]; rfl
  | d :: e :: r =>
    rw [collapseNl_cons3]
    by_cases htr : x = '\n' ∧ d = '\n' ∧ e = '\n'
    · rw [if_pos htr]
      rw [htr.1]
      exact collapseNl_head '\n' ('\n' :: r)
    · rw [if_neg htr]
      rfl
termination_by X.length

theorem collapseNl_idem : ∀ l : List Char, collapseNl (collapseNl l) = collapseNl l
  | [] => by rw [collapseNl_nil, collapseNl_nil]
  | [c] => by rw [collapseNl_one, collapseNl_one]
  | [c, d] => by rw [collapseNl_two, collapseNl_two]
  | c :: d :: e :: rest => by
    by_cases htr : c = '\n' ∧ d = '\n' ∧ e = '\n'
    · rw [collapseNl_cons3, if_pos htr]
      exact collapseNl_idem ('\n' :: '\n' :: rest)
    · rw [collapseNl_cons3, if_neg htr]
      have hidem := collapseNl_idem (d :: e :: rest)
      by_cases hc : c = '\n'
      · subst hc
        by_cases hd : d = '\n'
        · subst hd
          have he : e ≠ '\n' := fun hcon => htr ⟨rfl, rfl, hcon⟩
          have hX : collapseNl ('\n' :: e :: rest) =
              '\n' :: collapseNl (e :: rest) := by
            apply collapseNl_nl_cons
            intro y hy hcon
            rw [List.head?] at hy
            injection hy with hy2
            exact he (hy2 ▸ hcon)
          rw [hX]
          cases hY : collapseNl (e :: rest) with
          | nil =>
            have := collapseNl_head e rest
            rw [hY] at this
            simp at this
          | cons y Y2 =>
            have hhead := collapseNl_head e rest
            rw [hY] at hhead
            have hy : y = e := by
              simp [List.head?] at hhead
              exact hhead
            have hyne : y ≠ '\n' := hy ▸ he
            rw [collapseNl_cons3, if_neg (by rintro ⟨-, -, h3⟩; exact hyne h3)]
            rw [collapseNl_nl_cons (y :: Y2)
              (by intro z hz hcon; rw [List.head?] at hz; injection hz with hz2;
                  exact hyne (hz2 ▸ hcon))]
            have hfix : collapseNl (y :: Y2) = y :: Y2 := by
              have h2 := collapseNl_idem (e :: rest)
              rw [hY] at h2
              exact h2
            rw [hfix]
        · have hX : collapseNl ('\n' :: collapseNl (d :: e :: rest)) =
              '\n' :: collapseNl (collapseNl (d :: e :: rest)) := by
            apply collapseNl_nl_cons
            intro y hy hcon
            have hhead := collapseNl_head d (e :: rest)
            rw [hy] at hhead
            injection hhead with hh2
            exact hd (hcon ▸ hh2.symm)
          rw [hX, hidem]
      · rw [collapseNl_cons_ne c hc, hidem]
termination_by l => l.length
decreasing_by all_goals simp_arith

theorem collapseNl_sublist : ∀ l : List Char, (collapseNl l).Sublist l
  | [] => by rw [collapseNl_nil]
  | [c] => by rw [collapseNl_one]
  | [c, d] => by rw [collapseNl_two]
  | c :: d :: e :: rest => by
    rw [collapseNl_cons3]
    by_cases htr : c = '\n' ∧ d = '\n' ∧ e = '\n'
    · rw [if_pos htr]
      obtain ⟨rfl, rfl, rfl⟩ := htr
      exact (collapseNl_sublist ('\n' :: '\n' :: rest)).trans
        (List.sublist_cons_self '\n' ('\n' :: '\n' :: rest))
    · rw [if_neg htr]
      exact (collapseNl_sublist (d :: e :: rest)).cons₂ c
termination_by l => l.length
decreasing_by all_goals simp_arith

theorem collapseNl_nl_decomp :
    ∀ R : List Char, ∃ k, collapseNl ('\n' :: R) =
      '\n' :: collapseNl (R.drop k) ∧ (R.take k).all (· = '\n') = true
  | [] => ⟨0, by simp [collapseNl_one, collapseNl_nil], by simp⟩
  | [x] => ⟨0, by simp [collapseNl_two, collapseNl_one], by simp⟩
  | x :: y :: T => by
    by_cases hxy : x = '\n' ∧ y = '\n'
    · obtain ⟨rfl, rfl⟩ := hxy
      obtain ⟨k2, heq, hall⟩ := collapseNl_nl_decomp ('\n' :: T)
      refine ⟨k2 + 1, ?_, ?_⟩
      · rw [collapseNl_cons3, if_pos ⟨rfl, rfl, rfl⟩]
        exact heq
      · simpa using hall
    · refine ⟨0, ?_, by simp⟩
      rw [List.drop_zero, collapseNl_cons3, if_neg]
      rintro ⟨-, h2, h3⟩
      exact hxy ⟨h2, h3⟩
termination_by R => R.length
decreasing_by all_goals simp_arith

theorem append_split_nl (X A U V : List Char) (hX : '\n' ∉ X)
    (hA : '\n' ∉ A) (h : X ++ '\n' :: U = A ++ '\n' :: V) :
    X = A ∧ U = V := by
  have h1 : X = A := by
    have h2 := congrArg (List.takeWhile (· ≠ '\n')) h
    rwa [takeWhile_ne_nl_append X U hX, takeWhile_ne_nl_append A V hA] at h2
  subst h1
  refine ⟨rfl, ?_⟩
  have h3 := List.append_cancel_left h
  injection h3

theorem lineMap_fixed_drop (f : List Char → List Char) (hf0 : f [] = []) :
    ∀ (k : Nat) (R : List Char), lineMap f R = R →
      (R.take k).all (· = '\n') = true → lineMap f (R.drop k) = R.drop k := by
  intro k
  induction k with
  | zero => intro R hR _; simpa using hR
  | succ k ih =>
    intro R hR hall
    cases R with
    | nil =>
      rw [List.drop_nil]
      rw [lineMap_no_nl f [] (by simp), hf0]
    | cons c R2 =>
      rw [List.take_succ_cons] at hall
      simp only [List.all_cons, Bool.and_eq_true] at hall
      have hc : c = '\n' := by simpa using hall.1
      subst hc
      have hR2 : lineMap f R2 = R2 := by
        have hlm : lineMap f ('\n' :: R2) =
            f [] ++ '\n' :: lineMap f R2 := by
          have := lineMap_append f [] R2 (by simp)
          simpa using this
        rw [hlm, hf0] at hR
        simp at hR
        exact hR
      exact ih R2 hR2 hall.2

theorem lineMap_fixed_collapse (f : List Char → List Char)
    (hf0 : f [] = []) (hfn : ∀ a, '\n' ∉ a → '\n' ∉ f a) (y : List Char)
    (hfix : lineMap f y = y) :
    lineMap f (collapseNl y) = collapseNl y := by
  by_cases hnl : '\n' ∈ y
  · obtain ⟨A, R, hY, hA⟩ := split_at_nl y hnl
    rw [hY, lineMap_append f A R hA] at hfix
    obtain ⟨hfA, hLR⟩ :=
      append_split_nl (f A) A (lineMap f R) R (hfn A hA) hA hfix
    obtain ⟨k, hdec, hall⟩ := collapseNl_nl_decomp R
    have hRk : lineMap f (R.drop k) = R.drop k :=
      lineMap_fixed_drop f hf0 k R hLR hall
    have hrec : lineMap f (collapseNl (R.drop k)) = collapseNl (R.drop k) :=
      lineMap_fixed_collapse f hf0 hfn (R.drop k) hRk
    rw [hY, collapseNl_append_no_nl A ('\n' :: R) hA, hdec,
      lineMap_append f A (collapseNl (R.drop k)) hA, hfA, hrec]
  · rw [collapseNl_no_nl y hnl]
    exact hfix
termination_by y.length
decreasing_by
  rw [hY]
  have hk : (R.drop k).length ≤ R.length := by
    rw [List.length_drop]
    omega
  simp [List.length_append]
  omega

theorem lineMap_sublist (f : List Char → List Char)
    (hf : ∀ a : List Char, a.Sublist (f a)) (l : List Char) :
    l.Sublist (lineMap f l) := by
  by_cases hnl : '\n' ∈ l
  · obtain ⟨A, R, hL, hA⟩ := split_at_nl l hnl
    rw [hL, lineMap_append f A R hA]
    exact List.Sublist.append (hf A)
      (List.Sublist.cons₂ '\n' (lineMap_sublist f hf R))
  · rw [lineMap_no_nl f l hnl]
    exact hf l
termination_by l.length
decreasing_by
  rw [hL]
  simp [List.length_append]
  omega

theorem fixH_sublist (a : List Char) : a.Sublist (fixH a) := by
  unfold fixH
  split
  · split
    · rename_i c rest hdrop
      split
      · exact List.Sublist.refl a
      · have htp : a.takeWhile (· = '#') <+: a := List.takeWhile_prefix _
        obtain ⟨t, ht⟩ := htp
        have htd : t = c :: rest := by
          have hdl := congrArg (List.drop (a.takeWhile (· = '#')).length) ht
          rw [List.drop_left] at hdl
          rw [hdl, hdrop]
        conv_lhs => rw [← ht, htd]
        exact (List.sublist_cons_self ' ' (c :: rest)).append_left _
    · exact List.Sublist.refl a
  · exact List.Sublist.refl a

theorem fixL_sublist (a : List Char) : a.Sublist (fixL a) := by
  cases a with
  | nil => exact List.Sublist.refl _
  | cons c t =>
    cases t with
    | nil => exact List.Sublist.refl _
    | cons d rest =>
      rw [fixL_cons]
      by_cases hcd : (c = '-' ∨ c = '*') ∧ ¬ isJsSpace d
      · rw [if_pos hcd]
        exact (List.sublist_cons_self ' ' (d :: rest)).cons₂ c
      · rw [if_neg hcd]

/-- Claim C9: Beautify Document applies, in order, the header-space pass,
the list-marker-space pass, and the newline collapse (the first conjunct
is this composition); each pass is individually idempotent, the whole
operation is idempotent, and no characters are reordered: the two space
insertion passes only insert (the input is a sublist of the output) and
the collapse pass only deletes (the output is a sublist of the input). -/
theorem claimC9_beautify_idempotent :
    (∀ v : List Char,
      beautifyMarkdown v = collapseNl (lineMap fixL (lineMap fixH v))) ∧
    (∀ v : List Char, lineMap fixH (lineMap fixH v) = lineMap fixH v) ∧
    (∀ v : List Char, lineMap fixL (lineMap fixL v) = lineMap fixL v) ∧
    (∀ v : List Char, collapseNl (collapseNl v) = collapseNl v) ∧
    (∀ v : List Char,
      beautifyMarkdown (beautifyMarkdown v) = beautifyMarkdown v) ∧
    (∀ v : List Char, v.Sublist (lineMap fixH v)) ∧
    (∀ v : List Char, v.Sublist (lineMap fixL v)) ∧
    (∀ v : List Char, (collapseNl v).Sublist v) := by
  have hφn : ∀ a : List Char, '\n' ∉ a → '\n' ∉ fixL (fixH a) :=
    fun a h => fixL_no_nl _ (fixH_no_nl a h)
  have hH : ∀ v : List Char,
      lineMap fixH (lineMap fixH v) = lineMap fixH v := by
    intro v
    rw [lineMap_fuse fixH fixH fixH_no_nl v]
    exact lineMap_congr _ _ fixH_idem v
  have hL : ∀ v : List Char,
      lineMap fixL (lineMap fixL v) = lineMap fixL v := by
    intro v
    rw [lineMap_fuse fixL fixL fixL_no_nl v]
    exact lineMap_congr _ _ fixL_idem v
  have hfuse : ∀ w : List Char, lineMap fixL (lineMap fixH w) =
      lineMap (fun a => fixL (fixH a)) w :=
    fun w => lineMap_fuse fixL fixH fixH_no_nl w
  have hmain : ∀ v : List Char,
      beautifyMarkdown (beautifyMarkdown v) = beautifyMarkdown v := by
    intro v
    unfold beautifyMarkdown
    rw [hfuse, hfuse]
    have hGfix : lineMap (fun a => fixL (fixH a))
        (lineMap (fun a => fixL (fixH a)) v) =
        lineMap (fun a => fixL (fixH a)) v := by
      rw [lineMap_fuse _ _ hφn v]
      exact lineMap_congr _ _
        (fun a => by rw [fixH_fixL_fixH, fixL_idem]) v
    have hcol := lineMap_fixed_collapse (fun a => fixL (fixH a)) rfl hφn
      (lineMap (fun a => fixL (fixH a)) v) hGfix
    rw [hcol, collapseNl_idem]
  exact ⟨fun v => rfl, hH, hL, collapseNl_idem, hmain,
    fun v => lineMap_sublist fixH fixH_sublist v,
    fun v => lineMap_sublist fixL fixL_sublist v,
    collapseNl_sublist⟩

end MdEditor
